import Mathlib

/-!
Shallow embedding of the limebase page-cache core (buffer pool manager,
page abstraction, disk manager) from `src/storage/disk.rs`,
`src/storage/page/page.rs` and `src/buffer/buffer_pool_manager.rs`.

Conventions of the embedding:
* Byte buffers are `List Nat` (we only move bytes around, never compute
  on them).
* `PageId` is a `Nat`; the `usize::MAX` "invalid" sentinel of the source
  is rendered as `Option Nat` on the page's `page_id` field (the source
  only ever assigns ids produced by the monotone counter, so the sentinel
  is never confused with a real id).
* The `DashMap` page table is an association list with map semantics
  (insert replaces the key); the `LinkedList` free list is a plain list
  with `pop_front` = head and `push_back` = append.
* The program is modelled at the granularity of single whole operations,
  so every `try_write` succeeds and no lock is ever poisoned; a Rust
  `panic!` (or an out-of-bounds index, which also aborts) is rendered as
  `none` of an `Option` result, as is a propagated I/O error in
  `fetch_page`.
* The backing file is a `List Nat` plus an `appendMode` flag:
  `BasicDiskManager::new` opens a pre-existing file with
  `OpenOptions::append(true)`, and a POSIX `O_APPEND` write ignores the
  current seek position and writes at end of file, while in the
  create+truncate mode a write lands at the seek offset, zero-filling any
  gap.  `read_exact` fails when the region extends past end of file.
  The disk state also keeps a `log` of the `write_page` calls performed,
  purely as an observation of which writes were issued.
-/

namespace Limebase

/-- Disk manager state: fixed page size, the open mode of the backing
file, the file's bytes, and the trace of performed page writes. -/
structure DiskState where
  pageSize : Nat
  appendMode : Bool
  file : List Nat
  log : List (Nat × List Nat)
deriving Repr, DecidableEq

/-- `BasicDiskManager::new` on a path that does not exist:
create + truncate, read + write (no `O_APPEND`). -/
def DiskState.newCreated (psz : Nat) : DiskState :=
  { pageSize := psz, appendMode := false, file := [], log := [] }

/-- `BasicDiskManager::new` on a pre-existing file: open read + append,
so the handle carries `O_APPEND` and `content` is the file's bytes. -/
def DiskState.openExisting (psz : Nat) (content : List Nat) : DiskState :=
  { pageSize := psz, appendMode := true, file := content, log := [] }

/-- Write `data` into `file` at byte offset `off`, zero-filling the gap
when `off` is past end of file (POSIX seek-past-end-then-write). -/
def spliceAt (file : List Nat) (off : Nat) (data : List Nat) : List Nat :=
  let f := file ++ List.replicate (off - file.length) 0
  f.take off ++ data ++ f.drop (off + data.length)

/-- `BasicDiskManager::write_page`: seek to `id * PAGE_SIZE`, then
`write_all(data)`.  With `O_APPEND` (pre-existing-file mode) the kernel
writes at end of file regardless of the seek; otherwise the bytes land
at the seek offset. -/
def DiskState.write_page (d : DiskState) (id : Nat) (data : List Nat) : DiskState :=
  let off := id * d.pageSize
  let file := if d.appendMode then d.file ++ data else spliceAt d.file off data
  { d with file := file, log := d.log ++ [(id, data)] }

/-- `BasicDiskManager::read_page`: seek to `id * page_size` and
`read_exact` into a buffer of length `len`; fails (I/O error) when the
region extends past end of file. -/
def DiskState.read_page (d : DiskState) (id : Nat) (len : Nat) : Option (List Nat) :=
  let off := id * d.pageSize
  if off + len ≤ d.file.length then some ((d.file.drop off).take len) else none

/-- `Page` (src/storage/page/page.rs): identity, dirty bit, pin counter
and the fixed-size data buffer.  `page_id = none` is the
`PageId::new_invalid()` sentinel. -/
structure Page where
  page_id : Option Nat
  is_dirty : Bool
  pin_count : Nat
  data : List Nat
deriving Repr, DecidableEq

/-- `Page::new_raw(page_size)`: invalid id, clean, unpinned, zeroed
buffer of length `page_size`. -/
def Page.new_raw (page_size : Nat) : Page :=
  { page_id := none, is_dirty := false, pin_count := 0,
    data := List.replicate page_size 0 }

/-- `Page::allocate_page(page_id)`: sets the id and increments (not
resets) the pin counter. -/
def Page.allocate_page (p : Page) (page_id : Nat) : Page :=
  { p with page_id := some page_id, pin_count := p.pin_count + 1 }

/-- `Page::is_pinned`: pin counter strictly positive. -/
def Page.is_pinned (p : Page) : Bool :=
  decide (0 < p.pin_count)

/-- `Page::set_dirty`. -/
def Page.set_dirty (p : Page) : Page :=
  { p with is_dirty := true }

/-- `Page::clear_dirty`. -/
def Page.clear_dirty (p : Page) : Page :=
  { p with is_dirty := false }

/-- `Page::unpin`: saturating decrement of the pin counter (`Nat`
subtraction is already saturating). -/
def Page.unpin (p : Page) : Page :=
  { p with pin_count := p.pin_count - 1 }

/-- `Page::deallocate_page`: reset the id to the invalid sentinel and
clear dirty; the pin counter and the data buffer are left untouched. -/
def Page.deallocate_page (p : Page) : Page :=
  { p with page_id := none, is_dirty := false }

/-- `DashMap::get`: first entry with the given key (map semantics; under
the well-formedness invariant keys are unique anyway). -/
def tableGet (t : List (Nat × Nat)) (k : Nat) : Option Nat :=
  (t.find? (fun e => e.1 == k)).map Prod.snd

/-- `DashMap::insert`: replace any entry with the same key. -/
def tableInsert (t : List (Nat × Nat)) (k v : Nat) : List (Nat × Nat) :=
  t.filter (fun e => e.1 ≠ k) ++ [(k, v)]

/-- `DashMap::remove`, keyed removal. -/
def tableRemove (t : List (Nat × Nat)) (k : Nat) : List (Nat × Nat) :=
  t.filter (fun e => e.1 ≠ k)

/-- `BufferPoolManagerImpl` state: the slot array, the monotone page-id
counter, the page table, the FIFO free list and the disk manager. -/
structure BPM where
  pages : List Page
  next_page_id : Nat
  page_table : List (Nat × Nat)
  free_list : List Nat
  disk : DiskState
deriving Repr, DecidableEq

/-- `BufferPoolManagerImpl::new(pool_size, disk_manager)`: `pool_size`
fresh slots of the disk's page size, counter at 0, empty table, free
list seeded with all frame indices in order. -/
def BPM.new (pool_size : Nat) (disk : DiskState) : BPM :=
  { pages := List.replicate pool_size (Page.new_raw disk.pageSize),
    next_page_id := 0,
    page_table := [],
    free_list := List.range pool_size,
    disk := disk }

/-- `free_frame`: pop the front of the free list. -/
def BPM.free_frame (s : BPM) : Option Nat × BPM :=
  match s.free_list with
  | [] => (none, s)
  | f :: rest => (some f, { s with free_list := rest })

/-- The scan loop of `evict_page`: first slot (in index order) that is
neither pinned nor unallocated, together with its index.  Every
`try_write` succeeds in the sequential model, so no slot is skipped for
being locked. -/
def evictFind : List Page → Nat → Option (Nat × Nat × Page)
  | [], _ => none
  | p :: rest, i =>
    if p.is_pinned then evictFind rest (i + 1)
    else
      match p.page_id with
      | none => evictFind rest (i + 1)
      | some pid => some (i, pid, p)

/-- `flush_page_with_guard`: write the page's buffer to disk under the
given id, then clear its dirty bit. -/
def flushWithGuard (d : DiskState) (pid : Nat) (p : Page) : DiskState × Page :=
  (d.write_page pid p.data, p.clear_dirty)

/-- `evict_page`: scan for a victim; flush it first when dirty, remove
its table entry (`panic!` — modelled as `none` — when the id is not in
the table), deallocate the slot, and return the frame id that was stored
in the table. -/
def BPM.evict_page (s : BPM) : Option (Option Nat × BPM) :=
  match evictFind s.pages 0 with
  | none => some (none, s)
  | some (i, pid, p) =>
    let (disk, p) :=
      if p.is_dirty then flushWithGuard s.disk pid p else (s.disk, p)
    match tableGet s.page_table pid with
    | none => none
    | some fid =>
      some (some fid,
        { s with disk := disk,
                 page_table := tableRemove s.page_table pid,
                 pages := s.pages.set i p.deallocate_page })

/-- The tail of `new_page` and of the miss path of `fetch_page` once a
frame has been secured: draw the next page id from the atomic counter,
allocate the slot and insert the table entry.  `none` is the
out-of-bounds abort on `self.pages[frame_id.0]`. -/
def BPM.newPageWith (s : BPM) (f : Nat) : Option (Option (Nat × Nat) × BPM) :=
  let pid := s.next_page_id
  let s1 := { s with next_page_id := s.next_page_id + 1 }
  match s1.pages.get? f with
  | none => none
  | some p =>
    some (some (pid, f),
      { s1 with pages := s1.pages.set f (p.allocate_page pid),
                page_table := tableInsert s1.page_table pid f })

/-- `new_page`: free-list frame if any, else an eviction victim, else
the "no capacity" result `some (none, s)`; on success returns the fresh
page id and its frame. -/
def BPM.new_page (s : BPM) : Option (Option (Nat × Nat) × BPM) :=
  match s.free_frame with
  | (some f, s1) => s1.newPageWith f
  | (none, s1) =>
    match s1.evict_page with
    | none => none
    | some (none, s2) => some (none, s2)
    | some (some f, s2) => s2.newPageWith f

/-- `fetch_page`: table hit returns the mapped frame unchanged;
otherwise secure a frame as in `new_page`, read the page from disk into
the slot's buffer (propagating a read failure as `none`), allocate the
slot under `page_id` and insert the table entry. -/
def BPM.fetchInto (s : BPM) (page_id f : Nat) : Option (Option Nat × BPM) :=
  match s.pages.get? f with
  | none => none
  | some p =>
    match s.disk.read_page page_id p.data.length with
    | none => none
    | some bytes =>
      let p1 := ({ p with data := bytes }).allocate_page page_id
      some (some f,
        { s with pages := s.pages.set f p1,
                 page_table := tableInsert s.page_table page_id f })

/-- `fetch_page` (see `BPM.fetchInto` for the miss path's tail). -/
def BPM.fetch_page (s : BPM) (page_id : Nat) : Option (Option Nat × BPM) :=
  match tableGet s.page_table page_id with
  | some f => some (some f, s)
  | none =>
    match s.free_frame with
    | (some f, s1) => s1.fetchInto page_id f
    | (none, s1) =>
      match s1.evict_page with
      | none => none
      | some (none, s2) => some (none, s2)
      | some (some f, s2) => s2.fetchInto page_id f

/-- `unpin_page(page_id, is_dirty)`: `false` when the id is not in the
table or the slot is not pinned; otherwise decrement the pin counter and
set dirty when asked to. -/
def BPM.unpin_page (s : BPM) (page_id : Nat) (d : Bool) : Option (Bool × BPM) :=
  match tableGet s.page_table page_id with
  | none => some (false, s)
  | some f =>
    match s.pages.get? f with
    | none => none
    | some p =>
      if p.is_pinned then
        let p1 := if d then (p.unpin).set_dirty else p.unpin
        some (true, { s with pages := s.pages.set f p1 })
      else
        some (false, s)

/-- `flush_page(page_id)`: `false` when not resident; otherwise write
the slot's buffer to disk regardless of the dirty bit and clear dirty. -/
def BPM.flush_page (s : BPM) (page_id : Nat) : Option (Bool × BPM) :=
  match tableGet s.page_table page_id with
  | none => some (false, s)
  | some f =>
    match s.pages.get? f with
    | none => none
    | some p =>
      let (disk, p1) := flushWithGuard s.disk page_id p
      some (true, { s with disk := disk, pages := s.pages.set f p1 })

/-- The loop of `flush_all_pages`: visit slots in index order and write
every slot that holds a valid id; the slots themselves (dirty bits
included) are not modified. -/
def flushAllFrom (d : DiskState) : List Page → DiskState
  | [] => d
  | p :: rest =>
    match p.page_id with
    | none => flushAllFrom d rest
    | some pid => flushAllFrom (d.write_page pid p.data) rest

/-- `flush_all_pages`. -/
def BPM.flush_all_pages (s : BPM) : BPM :=
  { s with disk := flushAllFrom s.disk s.pages }

/-- `delete_page(page_id)`: `false` when the id is not in the table
(early return, no state change) or the slot is pinned; otherwise return
the frame to the free list, drop the table entry and deallocate the
slot. -/
def BPM.delete_page (s : BPM) (page_id : Nat) : Option (Bool × BPM) :=
  match tableGet s.page_table page_id with
  | none => some (false, s)
  | some f =>
    match s.pages.get? f with
    | none => none
    | some p =>
      if p.is_pinned then
        some (false, s)
      else
        some (true,
          { s with free_list := s.free_list ++ [f],
                   page_table := tableRemove s.page_table page_id,
                   pages := s.pages.set f p.deallocate_page })

/-- A caller writing a byte buffer into a fetched slot under its write
lock (`page_guard.data_mut().copy_from_slice(b)`); this is the client
action of the round-trip scenario, not manager code. -/
def BPM.setData (s : BPM) (f : Nat) (b : List Nat) : BPM :=
  match s.pages.get? f with
  | none => s
  | some p => { s with pages := s.pages.set f { p with data := b } }

end Limebase

namespace Limebase

/-! ### Concrete scenario states and driver runs -/

/-- Pool of one slot over a disk manager opened on a pre-existing file
(append mode) of two pages, page size 2: page 0 holds `[0,0]`, page 1
holds `[1,1]`. -/
def c1S0 : BPM := BPM.new 1 (DiskState.openExisting 2 [0, 0, 1, 1])

/-- The bytes the round-trip scenario writes into the fetched slot. -/
def c1WrittenBytes : List Nat := [9, 9]

/-- The round-trip sequence of the claim, with the eviction alternative:
fetch page 1, write `c1WrittenBytes` into its slot, unpin it dirty, let
it be evicted (the fetch of page 0 needs the only frame), unpin page 0,
re-fetch page 1 and return its slot's buffer. -/
def c1Run : Option (List Nat) := do
  let (r1, s1) ← c1S0.fetch_page 1
  let f1 ← r1
  let s2 := s1.setData f1 c1WrittenBytes
  let (b3, s3) ← s2.unpin_page 1 true
  if !b3 then none else
  let (r4, s4) ← s3.fetch_page 0
  let _ ← r4
  let (b5, s5) ← s4.unpin_page 0 false
  if !b5 then none else
  let (r6, s6) ← s5.fetch_page 1
  let f6 ← r6
  let p ← s6.pages.get? f6
  pure p.data

/-- A disk manager opened on a pre-existing one-page file holding
`[1,1]` (so the handle is in append mode). -/
def c2ExistingDisk : DiskState := DiskState.openExisting 2 [1, 1]

/-- Create a page, write `[5]` into it, unpin it dirty, then run
`flush_all_pages` and return slot 0. -/
def c3Run : Option Page := do
  let s0 := BPM.new 1 (DiskState.newCreated 1)
  let (r1, s1) ← s0.new_page
  let (pid, f) ← r1
  let s2 := s1.setData f [5]
  let (b3, s3) ← s2.unpin_page pid true
  if !b3 then none else
  (s3.flush_all_pages).pages.get? f

/-- Create a page, write `[7,7]`, unpin it clean, delete it (returning
its frame to the free list), then call `new_page` again and return the
slot it hands out. -/
def c9Run : Option Page := do
  let s0 := BPM.new 1 (DiskState.newCreated 2)
  let (r1, s1) ← s0.new_page
  let (pid, f) ← r1
  let s2 := s1.setData f [7, 7]
  let (b3, s3) ← s2.unpin_page pid false
  if !b3 then none else
  let (b4, s4) ← s3.delete_page pid
  if !b4 then none else
  let (r5, s5) ← s4.new_page
  let (_, f5) ← r5
  s5.pages.get? f5

/-- A one-slot manager holding page 0 resident, dirty, with pin count
already at zero. -/
def dirtyOneState : BPM :=
  { pages := [{ page_id := some 0, is_dirty := true, pin_count := 0, data := [5] }],
    next_page_id := 1,
    page_table := [(0, 0)],
    free_list := [],
    disk := DiskState.newCreated 1 }

/-- A one-slot manager holding page 0 resident, dirty, pinned once. -/
def pinnedOneState : BPM :=
  { pages := [{ page_id := some 0, is_dirty := true, pin_count := 1, data := [5] }],
    next_page_id := 1,
    page_table := [(0, 0)],
    free_list := [],
    disk := DiskState.newCreated 1 }

/-- Run `new_page` a given number of times, requiring every call to
succeed with a fresh page. -/
def newPageTimes (s : BPM) : Nat → Option BPM
  | 0 => some s
  | n + 1 =>
    match s.new_page with
    | some (some _, s1) => newPageTimes s1 n
    | _ => none

/-- The operations of the C6 invariant: `new_page`, `unpin_page` and
`delete_page` calls. -/
inductive Op where
  | newp : Op
  | unpin : Nat → Bool → Op
  | del : Nat → Op
deriving Repr, DecidableEq

/-- Apply one operation, keeping only the resulting manager state
(`none` when the operation aborts). -/
def applyOp (s : BPM) : Op → Option BPM
  | Op.newp => (s.new_page).map Prod.snd
  | Op.unpin pid d => (s.unpin_page pid d).map Prod.snd
  | Op.del pid => (s.delete_page pid).map Prod.snd

/-- Run a sequence of operations from a state. -/
def runOps : BPM → List Op → Option BPM
  | s, [] => some s
  | s, op :: rest =>
    match applyOp s op with
    | none => none
    | some s1 => runOps s1 rest

/-- The id held by slot `i` (`none` when out of range or the slot is
unallocated). -/
def pageIdAt (s : BPM) (i : Nat) : Option Nat :=
  (s.pages.get? i).bind Page.page_id

/-- Well-formedness of a manager state, maintained by every operation:
table entries point at in-range frames recording the matching id, table
keys are distinct and below the id counter, free frames are in-range,
unallocated, and listed once, and every allocated slot has its table
entry. -/
structure WF (s : BPM) : Prop where
  tableFrame : ∀ pid fid, (pid, fid) ∈ s.page_table →
    fid < s.pages.length ∧ pageIdAt s fid = some pid
  keysNodup : (s.page_table.map Prod.fst).Nodup
  keysLt : ∀ pid fid, (pid, fid) ∈ s.page_table → pid < s.next_page_id
  freeLt : ∀ f ∈ s.free_list, f < s.pages.length
  freeUnalloc : ∀ f ∈ s.free_list, pageIdAt s f = none
  freeNodup : s.free_list.Nodup
  allocInTable : ∀ i pid, pageIdAt s i = some pid → (pid, i) ∈ s.page_table

/-- The state a successful `delete_page(pid)` builds when `pid` maps to
frame `f` holding page `p`. -/
def deleteState (s : BPM) (pid f : Nat) (p : Page) : BPM :=
  { s with free_list := s.free_list ++ [f],
           page_table := tableRemove s.page_table pid,
           pages := s.pages.set f p.deallocate_page }

/-- The state `evict_page` builds after choosing victim slot `i` under
id `pid`, with `d` the disk state after the optional flush and `q` the
slot's final (deallocated) content. -/
def evictedState (s : BPM) (i pid : Nat) (q : Page) (d : DiskState) : BPM :=
  { s with disk := d,
           page_table := tableRemove s.page_table pid,
           pages := s.pages.set i q }

/-- The state `newPageWith` builds when slot `f` holds page `p`: counter
bumped, slot allocated under the drawn id, table entry inserted. -/
def allocState (s : BPM) (f : Nat) (p : Page) : BPM :=
  { s with next_page_id := s.next_page_id + 1,
           pages := s.pages.set f (p.allocate_page s.next_page_id),
           page_table := tableInsert s.page_table s.next_page_id f }

/-! ### Claim theorems -/

/-- C1: the round-trip claim fails on the code.  On a disk manager
opened over a pre-existing file (append mode), after fetching page 1,
writing `[9,9]` into its slot, unpinning it dirty and having the slot
evicted, re-fetching page 1 yields the stale on-disk bytes `[1,1]`, not
the written `[9,9]`: the flush performed during eviction appended the
bytes at end of file instead of writing them at the page's offset. -/
theorem roundtrip_lost_after_eviction_append_mode :
    c1Run = some [1, 1] ∧ c1Run ≠ some c1WrittenBytes := by
  exact ⟨rfl, by decide⟩

/-- C2: `write_page` under the pre-existing-file construction mode does
not store the buffer at the page's offset: writing `[9,9]` to page 0 of
a file that already holds `[1,1]` appends, so reading page 0 back
returns the old `[1,1]`.  Under the newly-created mode the same write
does land at the offset and reads back exactly. -/
theorem write_page_append_mode_not_offset :
    (c2ExistingDisk.write_page 0 [9, 9]).read_page 0 2 = some [1, 1] ∧
    (c2ExistingDisk.write_page 0 [9, 9]).read_page 0 2 ≠ some [9, 9] ∧
    ((DiskState.newCreated 2).write_page 0 [9, 9]).read_page 0 2 = some [9, 9] := by
  exact ⟨rfl, by decide, rfl⟩

/-- C3 counterexample: after `flush_all_pages` the resident dirty page's
dirty flag is still set — the loop writes each resident slot to disk but
never clears dirty, refuting the claim that the flag is cleared. -/
theorem flush_all_pages_keeps_dirty_flag :
    c3Run = some { page_id := some 0, is_dirty := true, pin_count := 0, data := [5] } := by
  rfl

/-- C4: `delete_page` on an identifier that is not resident returns
`false` (with the manager unchanged), contradicting the trait's own
documentation ("If page_id is not in the buffer pool, do nothing and
return true") and the claim. -/
theorem delete_page_nonresident_returns_false :
    (BPM.new 1 (DiskState.newCreated 1)).delete_page 5 =
      some (false, BPM.new 1 (DiskState.newCreated 1)) := by
  rfl

/-- C7 counterexample: `allocate_page` increments the pin counter
rather than setting it to 1 — allocating a page whose pin count is
already 1 leaves it at 2. -/
theorem allocate_page_increments_pin_counterexample :
    (((Page.new_raw 1).allocate_page 0).allocate_page 1).page_id = some 1 ∧
    (((Page.new_raw 1).allocate_page 0).allocate_page 1).pin_count ≠ 1 := by
  exact ⟨rfl, by decide⟩

/-- C7 amended: `allocate(id)` sets `page_id = id` and increments the
pin counter by one (so it is 1 exactly when the slot was unpinned
before, as it always is on the manager's allocation paths). -/
theorem allocate_page_sets_id_and_increments_pin (p : Page) (id : Nat) :
    (p.allocate_page id).page_id = some id ∧
    (p.allocate_page id).pin_count = p.pin_count + 1 := by
  exact ⟨rfl, rfl⟩

/-- C9: `new_page` hands out a slot without clearing its buffer: after
writing `[7,7]` to a page, unpinning and deleting it, the next
`new_page` returns the recycled slot still holding `[7,7]` (with the
fresh identifier 1), not zeros. -/
theorem new_page_returns_stale_bytes :
    c9Run = some { page_id := some 1, is_dirty := false, pin_count := 1, data := [7, 7] } ∧
    [7, 7] ≠ List.replicate 2 (0 : Nat) := by
  exact ⟨rfl, by decide⟩

end Limebase

namespace Limebase

/-- C8: the `unpin_page` guards.  When the id is absent from the page
table, or the resident slot's pin count is already zero, the call
returns `false` and the manager state is exactly unchanged; and
`Page::unpin` is a saturating decrement (truncated subtraction on the
pin counter, so zero stays zero). -/
theorem unpin_page_guard_behavior (s : BPM) (pid : Nat) (d : Bool) :
    (tableGet s.page_table pid = none → s.unpin_page pid d = some (false, s)) ∧
    (∀ f p, tableGet s.page_table pid = some f → s.pages.get? f = some p →
      p.pin_count = 0 → s.unpin_page pid d = some (false, s)) ∧
    (∀ q : Page, (Page.unpin q).pin_count = q.pin_count - 1) := by
  refine ⟨fun h => ?_, fun f p hf hp hpin => ?_, fun q => rfl⟩
  · simp [BPM.unpin_page, h]
  · rw [List.get?_eq_getElem?] at hp
    simp [BPM.unpin_page, hf, hp, Page.is_pinned, hpin]

/-- C8 witness: on the one-slot manager whose resident page 0 already
has pin count zero, `unpin_page(0, false)` returns `false` and changes
nothing. -/
theorem unpin_page_guard_behavior_witness :
    dirtyOneState.unpin_page 0 false = some (false, dirtyOneState) :=
  (unpin_page_guard_behavior dirtyOneState 0 false).2.1 0
    { page_id := some 0, is_dirty := true, pin_count := 0, data := [5] } rfl rfl rfl

/-- C10: on a resident page with positive pin count, `unpin_page(id,
false)` returns `true` and replaces the slot by the same page with only
the pin counter decremented — the dirty flag (and everything else) is
exactly as it was, so `is_dirty = false` never clears a set flag. -/
theorem unpin_page_clean_preserves_dirty (s : BPM) (pid f : Nat) (p : Page)
    (hf : tableGet s.page_table pid = some f) (hp : s.pages.get? f = some p)
    (hpin : 0 < p.pin_count) :
    s.unpin_page pid false =
      some (true, { s with pages := s.pages.set f { p with pin_count := p.pin_count - 1 } }) := by
  rw [List.get?_eq_getElem?] at hp
  simp [BPM.unpin_page, hf, hp, Page.is_pinned, hpin, Page.unpin]

/-- C10 witness: unpinning the pinned dirty page of `pinnedOneState`
with `is_dirty = false` decrements the pin count to zero and keeps the
dirty flag set. -/
theorem unpin_page_clean_preserves_dirty_witness :
    pinnedOneState.unpin_page 0 false =
      some (true,
        { pages := [{ page_id := some 0, is_dirty := true, pin_count := 0, data := [5] }],
          next_page_id := 1,
          page_table := [(0, 0)],
          free_list := [],
          disk := DiskState.newCreated 1 }) :=
  unpin_page_clean_preserves_dirty pinnedOneState 0 0
    { page_id := some 0, is_dirty := true, pin_count := 1, data := [5] } rfl rfl (by decide)

/-- C5: `new_page` returns the "no capacity" outcome `some (none, ·)`
exactly when the free list is empty and the eviction scan reports no
victim; and on the spec's scenario — a pool of capacity 10 in which 10
pages have been created and all remain pinned — the 11th call returns
"no capacity". -/
theorem new_page_no_capacity_characterization :
    (∀ s r : BPM, s.new_page = some (none, r) ↔
      s.free_list = [] ∧ s.evict_page = some (none, r)) ∧
    (newPageTimes (BPM.new 10 (DiskState.newCreated 1)) 10).map
      (fun s => (s.new_page).map Prod.fst) = some (some none) := by
  constructor
  · intro s r
    cases hfl : s.free_list with
    | nil =>
      cases hev : s.evict_page with
      | none => simp [BPM.new_page, BPM.free_frame, hfl, hev]
      | some pr =>
        obtain ⟨ro, s2⟩ := pr
        cases ro with
        | none => simp [BPM.new_page, BPM.free_frame, hfl, hev]
        | some f =>
          simp only [BPM.new_page, BPM.free_frame, hfl, hev, BPM.newPageWith]
          cases hg : s2.pages.get? f <;> simp [hg]
    | cons f rest =>
      simp only [BPM.new_page, BPM.free_frame, hfl, BPM.newPageWith]
      cases hg : s.pages.get? f <;> simp [hg]
  · decide

end Limebase

namespace Limebase

/-- A write already in the disk log is still there after the rest of the
`flush_all_pages` loop runs. -/
theorem mem_log_flushAllFrom_of_mem (ps : List Page) (d : DiskState)
    (x : Nat × List Nat) (h : x ∈ d.log) : x ∈ (flushAllFrom d ps).log := by
  induction ps generalizing d with
  | nil => exact h
  | cons q rest ih =>
    cases hq : q.page_id with
    | none => simpa [flushAllFrom, hq] using ih d h
    | some pid =>
      simp only [flushAllFrom, hq]
      exact ih _ (by simp [DiskState.write_page, h])

/-- Every slot of the list holding a valid id gets its `(id, data)`
write recorded by the `flush_all_pages` loop. -/
theorem mem_log_flushAllFrom (ps : List Page) (d : DiskState) (p : Page) (pid : Nat)
    (hp : p ∈ ps) (hid : p.page_id = some pid) :
    (pid, p.data) ∈ (flushAllFrom d ps).log := by
  induction ps generalizing d with
  | nil => cases hp
  | cons q rest ih =>
    cases List.mem_cons.mp hp with
    | inl h =>
      subst h
      simp only [flushAllFrom, hid]
      exact mem_log_flushAllFrom_of_mem rest _ _ (by simp [DiskState.write_page])
    | inr h =>
      cases hq : q.page_id with
      | none => simpa [flushAllFrom, hq] using ih _ h
      | some pid2 => simpa [flushAllFrom, hq] using ih _ h

/-- C3 amended: `flush_all_pages` issues a disk write of `(page_id,
data)` for every slot holding a valid id, and leaves the slot array —
dirty flags included — entirely unchanged (it does not clear dirty). -/
theorem flush_all_pages_writes_residents_and_preserves_slots (s : BPM) :
    (s.flush_all_pages).pages = s.pages ∧
    ∀ p pid, p ∈ s.pages → p.page_id = some pid →
      (pid, p.data) ∈ (s.flush_all_pages).disk.log := by
  exact ⟨rfl, fun p pid hp hid => mem_log_flushAllFrom s.pages s.disk p pid hp hid⟩

/-- C3 witness: flushing the one-slot manager whose resident page 0 is
dirty issues the write `(0, [5])`. -/
theorem flush_all_pages_writes_residents_witness :
    (0, [5]) ∈ ((dirtyOneState.flush_all_pages)).disk.log :=
  (flush_all_pages_writes_residents_and_preserves_slots dirtyOneState).2
    { page_id := some 0, is_dirty := true, pin_count := 0, data := [5] } 0
    (by decide) rfl

end Limebase

namespace Limebase

/-- A successful `tableGet` comes from an entry of the table. -/
theorem tableGet_mem {t : List (Nat × Nat)} {k v : Nat}
    (h : tableGet t k = some v) : (k, v) ∈ t := by
  unfold tableGet at h
  cases hf : t.find? (fun e => e.1 == k) with
  | none => rw [hf] at h; cases h
  | some e =>
    rw [hf] at h
    obtain ⟨e1, e2⟩ := e
    have hm := List.mem_of_find?_eq_some hf
    have hk := List.find?_some hf
    simp only [beq_iff_eq] at hk
    simp only [Option.map_some', Option.some_inj] at h
    rw [show e1 = k from hk, show e2 = v from h] at hm
    exact hm

/-- With distinct keys, membership determines `tableGet`. -/
theorem tableGet_of_mem_nodup {t : List (Nat × Nat)} {k v : Nat}
    (hn : (t.map Prod.fst).Nodup) (h : (k, v) ∈ t) : tableGet t k = some v := by
  induction t with
  | nil => cases h
  | cons e rest ih =>
    simp only [List.map_cons, List.nodup_cons] at hn
    cases List.mem_cons.mp h with
    | inl he =>
      rw [show e = (k, v) from he.symm] at hn ⊢
      simp [tableGet, List.find?_cons]
    | inr he =>
      have hne : (e.1 == k) = false := by
        rw [beq_eq_false_iff_ne]
        intro hek
        exact hn.1 (hek ▸ List.mem_map_of_mem Prod.fst he)
      unfold tableGet
      rw [List.find?_cons, hne]
      exact ih hn.2 he

/-- With distinct keys, an entry's value is unique. -/
theorem mem_value_unique {t : List (Nat × Nat)} {k v1 v2 : Nat}
    (hn : (t.map Prod.fst).Nodup) (h1 : (k, v1) ∈ t) (h2 : (k, v2) ∈ t) :
    v1 = v2 := by
  have e1 := tableGet_of_mem_nodup hn h1
  have e2 := tableGet_of_mem_nodup hn h2
  rw [e1] at e2
  exact Option.some_inj.mp e2

/-- Membership in `tableInsert`. -/
theorem mem_tableInsert {t : List (Nat × Nat)} {k v : Nat} {e : Nat × Nat} :
    e ∈ tableInsert t k v ↔ (e ∈ t ∧ e.1 ≠ k) ∨ e = (k, v) := by
  simp [tableInsert, List.mem_filter, List.mem_append]

/-- Membership in `tableRemove`. -/
theorem mem_tableRemove {t : List (Nat × Nat)} {k : Nat} {e : Nat × Nat} :
    e ∈ tableRemove t k ↔ e ∈ t ∧ e.1 ≠ k := by
  simp [tableRemove, List.mem_filter]

/-- Removal keeps the keys distinct. -/
theorem keys_nodup_tableRemove {t : List (Nat × Nat)} (k : Nat)
    (hn : (t.map Prod.fst).Nodup) : ((tableRemove t k).map Prod.fst).Nodup :=
  List.Nodup.sublist (List.Sublist.map Prod.fst (List.filter_sublist t)) hn

/-- Insertion keeps the keys distinct (the old binding of the key, if
any, is filtered out first). -/
theorem keys_nodup_tableInsert {t : List (Nat × Nat)} (k v : Nat)
    (hn : (t.map Prod.fst).Nodup) : ((tableInsert t k v).map Prod.fst).Nodup := by
  unfold tableInsert
  rw [List.map_append, List.nodup_append]
  refine ⟨keys_nodup_tableRemove k hn, by simp, ?_⟩
  intro x hx hx2
  simp only [List.map_cons, List.map_nil, List.mem_singleton] at hx2
  obtain ⟨e, he, hex⟩ := List.mem_map.mp hx
  have := (List.mem_filter.mp he).2
  simp only [decide_eq_true_eq] at this
  exact this (hex.trans hx2)

end Limebase

namespace Limebase

/-- Unpack `pageIdAt s f = some pid` into the slot and its id. -/
theorem pageIdAt_some_elim {s : BPM} {f pid : Nat} (h : pageIdAt s f = some pid) :
    ∃ p, s.pages.get? f = some p ∧ p.page_id = some pid := by
  unfold pageIdAt at h
  cases hq : s.pages.get? f with
  | none => rw [hq] at h; cases h
  | some p => rw [hq] at h; exact ⟨p, rfl, h⟩

/-- `pageIdAt` after overwriting slot `f`, at slot `f`. -/
theorem pageIdAt_set_self {s : BPM} {f : Nat} (p1 : Page) (h : f < s.pages.length) :
    pageIdAt { s with pages := s.pages.set f p1 } f = p1.page_id := by
  unfold pageIdAt
  simp only
  rw [List.get?_set_eq_of_lt _ h]
  rfl

/-- `pageIdAt` after overwriting slot `f`, away from `f`. -/
theorem pageIdAt_set_ne {s : BPM} {f : Nat} (p1 : Page) {i : Nat} (h : i ≠ f) :
    pageIdAt { s with pages := s.pages.set f p1 } i = pageIdAt s i := by
  unfold pageIdAt
  simp only
  rw [List.get?_set_ne _ _ (Ne.symm h)]

/-- Overwriting a slot with a page of the same id (as `unpin`/`set_dirty`
do) preserves well-formedness. -/
theorem wf_set_same_id (s : BPM) (f : Nat) (p p1 : Page) (hwf : WF s)
    (hp : s.pages.get? f = some p) (hid : p1.page_id = p.page_id) :
    WF { s with pages := s.pages.set f p1 } := by
  have hpid : ∀ i, pageIdAt { s with pages := s.pages.set f p1 } i = pageIdAt s i := by
    intro i
    by_cases hif : i = f
    · subst hif
      obtain ⟨hlt, -⟩ := List.get?_eq_some.mp hp
      rw [pageIdAt_set_self p1 hlt]
      unfold pageIdAt
      rw [hp, hid]
      rfl
    · exact pageIdAt_set_ne p1 hif
  refine ⟨?_, hwf.keysNodup, hwf.keysLt, ?_, ?_, hwf.freeNodup, ?_⟩
  · intro pid fid hm
    obtain ⟨h1, h2⟩ := hwf.tableFrame pid fid hm
    refine ⟨?_, (hpid fid).trans h2⟩
    simpa [List.length_set] using h1
  · intro g hg
    simpa [List.length_set] using hwf.freeLt g hg
  · intro g hg
    exact (hpid g).trans (hwf.freeUnalloc g hg)
  · intro i pid h
    exact hwf.allocInTable i pid ((hpid i) ▸ h)

/-- `unpin_page` never aborts and preserves well-formedness and the
pool size. -/
theorem wf_unpin_page (s : BPM) (pid : Nat) (d : Bool) (hwf : WF s) :
    ∃ b s', s.unpin_page pid d = some (b, s') ∧ WF s' ∧
      s'.pages.length = s.pages.length := by
  unfold BPM.unpin_page
  cases hg : tableGet s.page_table pid with
  | none => exact ⟨false, s, rfl, hwf, rfl⟩
  | some f =>
    have hmem := tableGet_mem hg
    obtain ⟨hflt, hfid⟩ := hwf.tableFrame pid f hmem
    obtain ⟨p, hp, hpid⟩ := pageIdAt_some_elim hfid
    by_cases hpin : p.is_pinned
    · refine ⟨true,
        { s with pages := s.pages.set f (if d then (p.unpin).set_dirty else p.unpin) },
        ?_, ?_, ?_⟩
      · simp only [hp, hpin, if_true]
      · apply wf_set_same_id s f p _ hwf hp
        cases d <;> simp [Page.unpin, Page.set_dirty]
      · simp [List.length_set]
    · refine ⟨false, s, ?_, hwf, rfl⟩
      simp only [hp]
      simp [hpin]

end Limebase

namespace Limebase

/-- The state built by a successful `delete_page` (frame returned to the
free list, table entry removed, slot deallocated) is well-formed. -/
theorem wf_delete_state (s : BPM) (pid f : Nat) (p : Page) (hwf : WF s)
    (hmem : (pid, f) ∈ s.page_table) (hp : s.pages.get? f = some p)
    (hfid : pageIdAt s f = some pid) :
    WF (deleteState s pid f p) := by
  have hflt : f < s.pages.length := (hwf.tableFrame pid f hmem).1
  have hfnotfree : f ∉ s.free_list := fun hf => by
    simp [hwf.freeUnalloc f hf] at hfid
  have hPset : ∀ i, i ≠ f → pageIdAt (deleteState s pid f p) i = pageIdAt s i := by
    intro i hif
    exact pageIdAt_set_ne (s := s) p.deallocate_page hif
  have hPf : pageIdAt (deleteState s pid f p) f = none := by
    exact pageIdAt_set_self (s := s) p.deallocate_page hflt
  refine ⟨?_, ?_, ?_, ?_, ?_, ?_, ?_⟩
  · intro q g hmq
    obtain ⟨hq1, hq2⟩ := mem_tableRemove.mp hmq
    obtain ⟨hg1, hg2⟩ := hwf.tableFrame q g hq1
    have hgf : g ≠ f := by
      intro h
      subst h
      exact hq2 (Option.some_inj.mp (hg2.symm.trans hfid))
    exact ⟨by simpa [deleteState, List.length_set] using hg1, (hPset g hgf).trans hg2⟩
  · exact keys_nodup_tableRemove pid hwf.keysNodup
  · intro q g hmq
    exact hwf.keysLt q g (mem_tableRemove.mp hmq).1
  · intro g hg
    rcases List.mem_append.mp hg with h | h
    · simpa [deleteState, List.length_set] using hwf.freeLt g h
    · simp only [List.mem_singleton] at h
      subst h
      simpa [deleteState, List.length_set] using hflt
  · intro g hg
    rcases List.mem_append.mp hg with h | h
    · have hgf : g ≠ f := fun e => hfnotfree (e ▸ h)
      exact (hPset g hgf).trans (hwf.freeUnalloc g h)
    · simp only [List.mem_singleton] at h
      subst h
      exact hPf
  · rw [show (deleteState s pid f p).free_list = s.free_list ++ [f] from rfl,
      List.nodup_append]
    refine ⟨hwf.freeNodup, List.nodup_singleton f, ?_⟩
    intro x hx hx2
    simp only [List.mem_singleton] at hx2
    subst hx2
    exact hfnotfree hx
  · intro i q hiq
    have hif : i ≠ f := by
      intro h
      subst h
      rw [hPf] at hiq
      cases hiq
    rw [hPset i hif] at hiq
    have hmem2 := hwf.allocInTable i q hiq
    have hqpid : q ≠ pid := by
      intro h
      subst h
      exact hif (mem_value_unique hwf.keysNodup hmem2 hmem)
    exact mem_tableRemove.mpr ⟨hmem2, hqpid⟩

/-- `delete_page` never aborts and preserves well-formedness and the
pool size. -/
theorem wf_delete_page (s : BPM) (pid : Nat) (hwf : WF s) :
    ∃ b s', s.delete_page pid = some (b, s') ∧ WF s' ∧
      s'.pages.length = s.pages.length := by
  unfold BPM.delete_page
  cases hg : tableGet s.page_table pid with
  | none => exact ⟨false, s, rfl, hwf, rfl⟩
  | some f =>
    have hmem := tableGet_mem hg
    obtain ⟨hflt, hfid⟩ := hwf.tableFrame pid f hmem
    obtain ⟨p, hp, hpid⟩ := pageIdAt_some_elim hfid
    by_cases hpin : p.is_pinned
    · refine ⟨false, s, ?_, hwf, rfl⟩
      simp only [hp]
      simp [hpin]
    · refine ⟨true, deleteState s pid f p, ?_,
        wf_delete_state s pid f p hwf hmem hp hfid, ?_⟩
      · simp only [hp]
        simp [hpin, deleteState]
      · simp [deleteState, List.length_set]

end Limebase

namespace Limebase

/-- What a successful eviction scan returns: an in-range slot, unpinned
and allocated under the returned id, at the returned index. -/
theorem evictFind_spec (ps : List Page) (j i pid : Nat) (p : Page)
    (h : evictFind ps j = some (i, pid, p)) :
    ∃ k, k < ps.length ∧ i = j + k ∧ ps.get? k = some p ∧
      p.page_id = some pid ∧ p.is_pinned = false := by
  induction ps generalizing j with
  | nil => cases h
  | cons q rest ih =>
    simp only [evictFind] at h
    by_cases hq : q.is_pinned
    · rw [if_pos hq] at h
      obtain ⟨k, hk, hik, hget, hpid2, hpin⟩ := ih (j + 1) h
      refine ⟨k + 1, by simpa using hk, by omega, by simpa using hget, hpid2, hpin⟩
    · rw [if_neg hq] at h
      cases hqid : q.page_id with
      | none =>
        rw [hqid] at h
        obtain ⟨k, hk, hik, hget, hpid2, hpin⟩ := ih (j + 1) h
        refine ⟨k + 1, by simpa using hk, by omega, by simpa using hget, hpid2, hpin⟩
      | some pid2 =>
        rw [hqid] at h
        have h1 : j = i ∧ pid2 = pid ∧ q = p := by
          simpa using h
        obtain ⟨rfl, rfl, rfl⟩ := h1
        refine ⟨0, by simp, by omega, by simp, hqid, ?_⟩
        simpa using hq

/-- The state built by eviction of victim slot `i` is well-formed, for
any final slot content with an invalid id and any disk state. -/
theorem wf_evicted_state (s : BPM) (i pid : Nat) (q : Page) (d : DiskState)
    (hwf : WF s) (hmem : (pid, i) ∈ s.page_table)
    (hfid : pageIdAt s i = some pid) (hq : q.page_id = none) :
    WF (evictedState s i pid q d) := by
  have hflt : i < s.pages.length := (hwf.tableFrame pid i hmem).1
  have hinotfree : i ∉ s.free_list := fun hf => by
    simp [hwf.freeUnalloc i hf] at hfid
  have hPset : ∀ g, g ≠ i → pageIdAt (evictedState s i pid q d) g = pageIdAt s g := by
    intro g hgi
    exact pageIdAt_set_ne (s := s) q hgi
  have hPi : pageIdAt (evictedState s i pid q d) i = none := by
    have h1 : pageIdAt (evictedState s i pid q d) i = q.page_id :=
      pageIdAt_set_self (s := s) q hflt
    exact h1.trans hq
  refine ⟨?_, ?_, ?_, ?_, ?_, ?_, ?_⟩
  · intro r g hmq
    obtain ⟨hq1, hq2⟩ := mem_tableRemove.mp hmq
    obtain ⟨hg1, hg2⟩ := hwf.tableFrame r g hq1
    have hgi : g ≠ i := by
      intro h
      subst h
      exact hq2 (Option.some_inj.mp (hg2.symm.trans hfid))
    exact ⟨by simpa [evictedState, List.length_set] using hg1, (hPset g hgi).trans hg2⟩
  · exact keys_nodup_tableRemove pid hwf.keysNodup
  · intro r g hmq
    exact hwf.keysLt r g (mem_tableRemove.mp hmq).1
  · intro g hg
    simpa [evictedState, List.length_set] using hwf.freeLt g hg
  · intro g hg
    have hgi : g ≠ i := fun e => hinotfree (e ▸ hg)
    exact (hPset g hgi).trans (hwf.freeUnalloc g hg)
  · exact hwf.freeNodup
  · intro g r hgr
    have hgi : g ≠ i := by
      intro h
      subst h
      rw [hPi] at hgr
      cases hgr
    rw [hPset g hgi] at hgr
    have hmem2 := hwf.allocInTable g r hgr
    have hrpid : r ≠ pid := by
      intro h
      subst h
      exact hgi (mem_value_unique hwf.keysNodup hmem2 hmem)
    exact mem_tableRemove.mpr ⟨hmem2, hrpid⟩

/-- `evict_page` never aborts under well-formedness: it returns either
"no victim" with the state unchanged, or a victim frame that is
in-range, now unallocated and off the free list, in a well-formed state
of the same pool size. -/
theorem wf_evict_page (s : BPM) (hwf : WF s) :
    s.evict_page = some (none, s) ∨
    ∃ f s', s.evict_page = some (some f, s') ∧ WF s' ∧
      s'.pages.length = s.pages.length ∧ f < s'.pages.length ∧
      pageIdAt s' f = none ∧ f ∉ s'.free_list := by
  unfold BPM.evict_page
  cases hev : evictFind s.pages 0 with
  | none => exact Or.inl rfl
  | some t =>
    obtain ⟨i, pid, p⟩ := t
    obtain ⟨k, hk, hik, hget, hpid, hpin⟩ := evictFind_spec s.pages 0 i pid p hev
    have hik0 : k = i := by omega
    subst hik0
    have hfid : pageIdAt s k = some pid := by
      unfold pageIdAt
      rw [hget]
      simpa using hpid
    have hmem : (pid, k) ∈ s.page_table := hwf.allocInTable k pid hfid
    have htg : tableGet s.page_table pid = some k := tableGet_of_mem_nodup hwf.keysNodup hmem
    have hinotfree : k ∉ s.free_list := fun hf => by
      simp [hwf.freeUnalloc k hf] at hfid
    by_cases hd : p.is_dirty
    · refine Or.inr ⟨k,
        evictedState s k pid (p.clear_dirty).deallocate_page
          (s.disk.write_page pid p.data), ?_, ?_, ?_, ?_, ?_, ?_⟩
      · simp only [hd, if_true, flushWithGuard, htg]
        simp [evictedState]
      · exact wf_evicted_state s k pid _ _ hwf hmem hfid rfl
      · simp [evictedState, List.length_set]
      · simpa [evictedState, List.length_set] using hk
      · have h1 := pageIdAt_set_self (s := s) ((p.clear_dirty).deallocate_page) hk
        exact h1
      · exact hinotfree
    · refine Or.inr ⟨k, evictedState s k pid p.deallocate_page s.disk, ?_, ?_, ?_, ?_, ?_, ?_⟩
      · simp only [hd, if_false, flushWithGuard, htg]
        simp [evictedState, hd]
      · exact wf_evicted_state s k pid _ _ hwf hmem hfid rfl
      · simp [evictedState, List.length_set]
      · simpa [evictedState, List.length_set] using hk
      · have h1 := pageIdAt_set_self (s := s) (p.deallocate_page) hk
        exact h1
      · exact hinotfree

end Limebase

namespace Limebase

/-- Allocating a fresh id into an in-range, unallocated, non-free frame
yields a well-formed state. -/
theorem wf_allocState (s : BPM) (f : Nat) (p : Page) (hwf : WF s)
    (hp : s.pages.get? f = some p) (hnone : pageIdAt s f = none)
    (hfree : f ∉ s.free_list) :
    WF (allocState s f p) := by
  obtain ⟨hflt, -⟩ := List.get?_eq_some.mp hp
  have hPset : ∀ g, g ≠ f → pageIdAt (allocState s f p) g = pageIdAt s g := by
    intro g hgf
    exact pageIdAt_set_ne (s := s) (p.allocate_page s.next_page_id) hgf
  have hPf : pageIdAt (allocState s f p) f = some s.next_page_id := by
    exact pageIdAt_set_self (s := s) (p.allocate_page s.next_page_id) hflt
  refine ⟨?_, ?_, ?_, ?_, ?_, ?_, ?_⟩
  · intro q g hmq
    rcases mem_tableInsert.mp hmq with ⟨hold, hqne⟩ | hnew
    · obtain ⟨hg1, hg2⟩ := hwf.tableFrame q g hold
      have hgf : g ≠ f := by
        intro h
        subst h
        rw [hnone] at hg2
        cases hg2
      exact ⟨by simpa [allocState, List.length_set] using hg1, (hPset g hgf).trans hg2⟩
    · obtain ⟨h1, h2⟩ := Prod.mk.injEq .. ▸ hnew
      subst h1
      subst h2
      exact ⟨by simpa [allocState, List.length_set] using hflt, hPf⟩
  · exact keys_nodup_tableInsert s.next_page_id f hwf.keysNodup
  · intro q g hmq
    rcases mem_tableInsert.mp hmq with ⟨hold, -⟩ | hnew
    · have := hwf.keysLt q g hold
      simp only [allocState]
      omega
    · obtain ⟨h1, -⟩ := Prod.mk.injEq .. ▸ hnew
      subst h1
      simp only [allocState]
      omega
  · intro g hg
    simpa [allocState, List.length_set] using hwf.freeLt g hg
  · intro g hg
    have hgf : g ≠ f := fun e => hfree (e ▸ hg)
    exact (hPset g hgf).trans (hwf.freeUnalloc g hg)
  · exact hwf.freeNodup
  · intro g q hgq
    by_cases hgf : g = f
    · subst hgf
      rw [hPf] at hgq
      obtain rfl := Option.some_inj.mp hgq
      exact mem_tableInsert.mpr (Or.inr rfl)
    · rw [hPset g hgf] at hgq
      have hmem2 := hwf.allocInTable g q hgq
      have hqlt := hwf.keysLt q g hmem2
      exact mem_tableInsert.mpr (Or.inl ⟨hmem2, by omega⟩)

/-- `newPageWith` on a frame satisfying the allocation preconditions
succeeds and produces a well-formed state of the same pool size. -/
theorem wf_newPageWith (s : BPM) (f : Nat) (hwf : WF s)
    (hflt : f < s.pages.length) (hnone : pageIdAt s f = none)
    (hfree : f ∉ s.free_list) :
    ∃ pid s', s.newPageWith f = some (some (pid, f), s') ∧ WF s' ∧
      s'.pages.length = s.pages.length := by
  have hp : s.pages.get? f = some (s.pages.get ⟨f, hflt⟩) := List.get?_eq_get hflt
  refine ⟨s.next_page_id, allocState s f (s.pages.get ⟨f, hflt⟩), ?_,
    wf_allocState s f _ hwf hp hnone hfree, ?_⟩
  · simp only [BPM.newPageWith, hp]
    simp [allocState]
  · simp [allocState, List.length_set]

/-- Popping the free list yields a well-formed state and a frame
satisfying the allocation preconditions. -/
theorem wf_free_frame_some (s : BPM) (f : Nat) (s1 : BPM) (hwf : WF s)
    (h : s.free_frame = (some f, s1)) :
    WF s1 ∧ s1.pages = s.pages ∧ f < s1.pages.length ∧
      pageIdAt s1 f = none ∧ f ∉ s1.free_list := by
  unfold BPM.free_frame at h
  cases hfl : s.free_list with
  | nil =>
    rw [hfl] at h
    injection h with h1 h2
    cases h1
  | cons g rest =>
    rw [hfl] at h
    injection h with h1 h2
    obtain rfl := Option.some_inj.mp h1
    subst h2
    have hnodup := hwf.freeNodup
    rw [hfl] at hnodup
    obtain ⟨hgrest, hrest⟩ := List.nodup_cons.mp hnodup
    have hgmem : g ∈ s.free_list := by
      rw [hfl]
      exact List.mem_cons_self g rest
    refine ⟨⟨hwf.tableFrame, hwf.keysNodup, hwf.keysLt, ?_, ?_, hrest, hwf.allocInTable⟩,
      rfl, hwf.freeLt g hgmem, hwf.freeUnalloc g hgmem, hgrest⟩
    · intro x hx
      exact hwf.freeLt x (by rw [hfl]; exact List.mem_cons_of_mem g hx)
    · intro x hx
      exact hwf.freeUnalloc x (by rw [hfl]; exact List.mem_cons_of_mem g hx)

/-- `new_page` never aborts under well-formedness and preserves it and
the pool size. -/
theorem wf_new_page (s : BPM) (hwf : WF s) :
    ∃ r s', s.new_page = some (r, s') ∧ WF s' ∧ s'.pages.length = s.pages.length := by
  cases hff : s.free_frame with
  | mk o s1 =>
    cases o with
    | some f =>
      obtain ⟨hwf1, hpg, hflt, hnone, hfree⟩ := wf_free_frame_some s f s1 hwf hff
      obtain ⟨pid, s2, heq, hwf2, hlen⟩ := wf_newPageWith s1 f hwf1 hflt hnone hfree
      refine ⟨some (pid, f), s2, ?_, hwf2, by rw [hlen, hpg]⟩
      simp only [BPM.new_page, hff, heq]
    | none =>
      have hs1 : s1 = s := by
        unfold BPM.free_frame at hff
        cases hfl : s.free_list with
        | nil =>
          rw [hfl] at hff
          injection hff with h1 h2
          exact h2.symm
        | cons g rest =>
          rw [hfl] at hff
          injection hff with h1 h2
          cases h1
      subst hs1
      rcases wf_evict_page s1 hwf with hnov | ⟨f, s2, heq, hwf2, hlen, hflt, hnone, hfree⟩
      · refine ⟨none, s1, ?_, hwf, rfl⟩
        simp only [BPM.new_page, hff, hnov]
      · obtain ⟨pid, s3, heq3, hwf3, hlen3⟩ := wf_newPageWith s2 f hwf2 hflt hnone hfree
        refine ⟨some (pid, f), s3, ?_, hwf3, by rw [hlen3, hlen]⟩
        simp only [BPM.new_page, hff, heq, heq3]

end Limebase

namespace Limebase

/-- A freshly constructed manager is well-formed. -/
theorem wf_init (N : Nat) (d : DiskState) : WF (BPM.new N d) := by
  have hget : ∀ i, i < N →
      (List.replicate N (Page.new_raw d.pageSize)).get? i = some (Page.new_raw d.pageSize) := by
    intro i hi
    rw [List.get?_eq_getElem?, List.getElem?_replicate, if_pos hi]
  refine ⟨?_, ?_, ?_, ?_, ?_, ?_, ?_⟩
  · intro pid fid h
    cases h
  · simp [BPM.new]
  · intro pid fid h
    cases h
  · intro g hg
    simpa [BPM.new] using List.mem_range.mp hg
  · intro g hg
    have hlt := List.mem_range.mp hg
    unfold pageIdAt
    show ((List.replicate N (Page.new_raw d.pageSize)).get? g).bind Page.page_id = none
    rw [hget g hlt]
    rfl
  · exact List.nodup_range N
  · intro i pid h
    exfalso
    unfold pageIdAt at h
    by_cases hi : i < N
    · rw [show (BPM.new N d).pages = List.replicate N (Page.new_raw d.pageSize) from rfl,
        hget i hi] at h
      cases h
    · rw [show (BPM.new N d).pages = List.replicate N (Page.new_raw d.pageSize) from rfl,
        List.get?_eq_getElem?, List.getElem?_replicate, if_neg hi] at h
      cases h

/-- Every single operation of the C6 sequence preserves well-formedness
and the pool size when it completes. -/
theorem wf_applyOp (s : BPM) (op : Op) (s' : BPM) (hwf : WF s)
    (h : applyOp s op = some s') : WF s' ∧ s'.pages.length = s.pages.length := by
  cases op with
  | newp =>
    obtain ⟨r, s2, heq, hwf2, hlen⟩ := wf_new_page s hwf
    rw [show applyOp s Op.newp = (s.new_page).map Prod.snd from rfl, heq] at h
    obtain rfl := Option.some_inj.mp h
    exact ⟨hwf2, hlen⟩
  | unpin pid dd =>
    obtain ⟨b, s2, heq, hwf2, hlen⟩ := wf_unpin_page s pid dd hwf
    rw [show applyOp s (Op.unpin pid dd) = (s.unpin_page pid dd).map Prod.snd from rfl,
      heq] at h
    obtain rfl := Option.some_inj.mp h
    exact ⟨hwf2, hlen⟩
  | del pid =>
    obtain ⟨b, s2, heq, hwf2, hlen⟩ := wf_delete_page s pid hwf
    rw [show applyOp s (Op.del pid) = (s.delete_page pid).map Prod.snd from rfl, heq] at h
    obtain rfl := Option.some_inj.mp h
    exact ⟨hwf2, hlen⟩

/-- Running any operation sequence preserves well-formedness and the
pool size. -/
theorem wf_runOps (ops : List Op) (s s' : BPM) (hwf : WF s)
    (h : runOps s ops = some s') : WF s' ∧ s'.pages.length = s.pages.length := by
  induction ops generalizing s with
  | nil =>
    obtain rfl := Option.some_inj.mp h
    exact ⟨hwf, rfl⟩
  | cons op rest ih =>
    rw [show runOps s (op :: rest) =
      (match applyOp s op with
       | none => none
       | some s1 => runOps s1 rest) from rfl] at h
    cases hop : applyOp s op with
    | none =>
      rw [hop] at h
      cases h
    | some s1 =>
      rw [hop] at h
      obtain ⟨hwf1, hlen1⟩ := wf_applyOp s op s1 hwf hop
      obtain ⟨hwf2, hlen2⟩ := ih s1 hwf1 h
      exact ⟨hwf2, hlen2.trans hlen1⟩

/-- A well-formed page table has at most one entry per frame, so its
size is bounded by the pool size. -/
theorem table_length_le (s : BPM) (hwf : WF s) :
    s.page_table.length ≤ s.pages.length := by
  have hsnd : (s.page_table.map Prod.snd).Nodup := by
    have hpfst : s.page_table.Pairwise (fun e1 e2 => e1.1 ≠ e2.1) :=
      (List.pairwise_map).mp hwf.keysNodup
    have hpsnd : s.page_table.Pairwise (fun e1 e2 => e1.2 ≠ e2.2) := by
      refine List.Pairwise.imp_of_mem ?_ hpfst
      intro a b ha hb hne heq
      apply hne
      have h1 := (hwf.tableFrame a.1 a.2 ha).2
      have h2 := (hwf.tableFrame b.1 b.2 hb).2
      rw [← heq] at h2
      exact Option.some_inj.mp (h1.symm.trans h2)
    exact (List.pairwise_map).mpr hpsnd
  have hlt : ∀ x ∈ s.page_table.map Prod.snd, x < s.pages.length := by
    intro x hx
    obtain ⟨e, he, hex⟩ := List.mem_map.mp hx
    exact hex ▸ (hwf.tableFrame e.1 e.2 he).1
  calc s.page_table.length
      = (s.page_table.map Prod.snd).length := (List.length_map _ _).symm
    _ = (s.page_table.map Prod.snd).toFinset.card :=
        (List.toFinset_card_of_nodup hsnd).symm
    _ ≤ (Finset.range s.pages.length).card := by
        apply Finset.card_le_card
        intro x hx
        rw [Finset.mem_range]
        exact hlt x (List.mem_toFinset.mp hx)
    _ = s.pages.length := Finset.card_range _

/-- C6: against a manager constructed with pool capacity `N` (over any
disk manager), every sequence of `new_page`/`unpin_page`/`delete_page`
calls that completes leaves at most `N` entries in the page table;
since every prefix of a sequence is itself a sequence, the number of
resident pages never exceeds `N`. -/
theorem resident_pages_le_capacity (N : Nat) (d : DiskState) (ops : List Op) (s : BPM)
    (h : runOps (BPM.new N d) ops = some s) :
    s.page_table.length ≤ N := by
  obtain ⟨hwf, hlen⟩ := wf_runOps ops (BPM.new N d) s (wf_init N d) h
  have hle := table_length_le s hwf
  rw [hlen] at hle
  simpa [BPM.new] using hle

/-- C6 witness: one `new_page` call on a capacity-1 pool leaves one
resident page, within the bound. -/
theorem resident_pages_le_capacity_witness :
    ({ pages := [{ page_id := some 0, is_dirty := false, pin_count := 1, data := [0] }],
       next_page_id := 1,
       page_table := [(0, 0)],
       free_list := [],
       disk := DiskState.newCreated 1 } : BPM).page_table.length ≤ 1 :=
  resident_pages_le_capacity 1 (DiskState.newCreated 1) [Op.newp] _ rfl

end Limebase
